import Mathlib

/-!
Verification of the feature-mapping and workflow core of the vAuto
feature-verification system.  Python strings are modelled as lists of
ASCII code points; similarity scores, confidence thresholds and
timestamps are modelled as rationals.  Each definition is a direct
translation of the corresponding Python function named in its
doc comment.
-/

namespace VAuto

/-- Feature text: a Python string modelled as its list of code points
(ASCII model). -/
abbrev Text := List Nat

/-- Python regex class `\s` on ASCII code points
(space, tab, LF, VT, FF, CR). -/
def isSpaceCh (c : Nat) : Bool :=
  c == 32 || c == 9 || c == 10 || c == 11 || c == 12 || c == 13

/-- Python regex class `\w` on ASCII code points
(digits, upper and lower letters, underscore). -/
def isWordCh (c : Nat) : Bool :=
  (48 ≤ c && c ≤ 57) || (65 ≤ c && c ≤ 90) || (97 ≤ c && c ≤ 122) || c == 95

/-- `str.lower` on one ASCII code point. -/
def lowerCh (c : Nat) : Nat :=
  if 65 ≤ c ∧ c ≤ 90 then c + 32 else c

/-- `text.lower()`. -/
def lowerStr (t : Text) : Text := t.map lowerCh

/-- `re.sub(r'[^\w\s]', ' ', text)`: every character outside the word and
whitespace classes becomes a space. -/
def stripNonWord (t : Text) : Text :=
  t.map (fun c => if !(isWordCh c || isSpaceCh c) then 32 else c)

/-- `re.sub(r'\s+', ' ', text)`: each maximal whitespace run becomes a
single space.  The flag records whether the previous character belonged
to a whitespace run. -/
def collapseWs : Text → Bool → Text
  | [], _ => []
  | c :: rest, prev =>
    if isSpaceCh c then
      if prev then collapseWs rest true else 32 :: collapseWs rest true
    else c :: collapseWs rest false

/-- `text.strip()`: drop leading and trailing whitespace. -/
def stripEnds (t : Text) : Text :=
  ((t.dropWhile isSpaceCh).reverse.dropWhile isSpaceCh).reverse

/-- `FeatureMapper.normalize_text` and `FeatureMappingModule.normalize_text`
(the two source files contain the identical function): guard for falsy
input, lower-case, replace special characters by spaces, collapse
whitespace runs, strip the ends. -/
def normalizeText (t : Text) : Text :=
  if t = [] then []
  else stripEnds (collapseWs (stripNonWord (lowerStr t)) false)

/-- `normalize_text` on an optional argument: `if not text: return ""`
also covers a `None` argument. -/
def normalizeTextOpt : Option Text → Text
  | none => []
  | some t => normalizeText t

/-- Characters that may appear in a normalized string: word characters
and the plain space, all fixed points of lower-casing. -/
def isCanonCh (c : Nat) : Bool :=
  (isWordCh c || c == 32) && (lowerCh c == c)

/-- No two adjacent whitespace characters. -/
def noDoubleWs : Text → Bool
  | a :: b :: rest => !(isSpaceCh a && isSpaceCh b) && noDoubleWs (b :: rest)
  | _ => true

/-- Whether the first character is whitespace (false on the empty string). -/
def headWs : Text → Bool
  | [] => false
  | c :: _ => isSpaceCh c

/-- A string already in the normal form produced by `normalizeText`:
canonical characters only, no duplicated whitespace, no whitespace at
either end. -/
def canonStr (t : Text) : Bool :=
  t.all isCanonCh && noDoubleWs t && !headWs t && !headWs t.reverse

theorem collapseWs_cons_sp_t {a : Nat} {r : Text} (h : isSpaceCh a = true) :
    collapseWs (a :: r) true = collapseWs r true := by
  simp [collapseWs, h]

theorem collapseWs_cons_sp_f {a : Nat} {r : Text} (h : isSpaceCh a = true) :
    collapseWs (a :: r) false = 32 :: collapseWs r true := by
  simp [collapseWs, h]

theorem collapseWs_cons_nsp {a : Nat} {r : Text} {p : Bool} (h : isSpaceCh a = false) :
    collapseWs (a :: r) p = a :: collapseWs r false := by
  simp [collapseWs, h]

theorem noDoubleWs_cons₂ (a b : Nat) (r : Text) :
    noDoubleWs (a :: b :: r) = (!(isSpaceCh a && isSpaceCh b) && noDoubleWs (b :: r)) := rfl

theorem headWs_cons (c : Nat) (r : Text) : headWs (c :: r) = isSpaceCh c := rfl

theorem lowerCh_idem (c : Nat) : lowerCh (lowerCh c) = lowerCh c := by
  unfold lowerCh
  by_cases h : 65 ≤ c ∧ c ≤ 90
  · rw [if_pos h, if_neg (by omega)]
  · rw [if_neg h, if_neg h]

theorem word_not_space {c : Nat} (h : isWordCh c = true) : isSpaceCh c = false := by
  unfold isWordCh at h
  unfold isSpaceCh
  simp only [Bool.or_eq_true, Bool.and_eq_true, decide_eq_true_eq, beq_iff_eq] at h
  simp only [Bool.or_eq_false_iff, beq_eq_false_iff_ne]
  omega

theorem mem_lowerStr {c : Nat} {t : Text} (h : c ∈ lowerStr t) : lowerCh c = c := by
  obtain ⟨d, _, rfl⟩ := List.mem_map.1 h
  exact lowerCh_idem d

theorem mem_stripNonWord {c : Nat} {t : Text} (h : c ∈ stripNonWord t) :
    (c ∈ t ∧ (isWordCh c || isSpaceCh c) = true) ∨ c = 32 := by
  obtain ⟨d, hd, hc⟩ := List.mem_map.1 h
  cases hw : (isWordCh d || isSpaceCh d) with
  | false => rw [hw] at hc; simp at hc; right; omega
  | true => rw [hw] at hc; simp at hc; left; exact ⟨hc ▸ hd, hc ▸ hw⟩

theorem mem_collapseWs {c : Nat} : ∀ {t : Text} {p : Bool}, c ∈ collapseWs t p →
    (c ∈ t ∧ isSpaceCh c = false) ∨ c = 32 := by
  intro t
  induction t with
  | nil => intro p h; simp [collapseWs] at h
  | cons a r ih =>
    intro p h
    by_cases hs : isSpaceCh a = true
    · cases p with
      | true =>
        rw [collapseWs_cons_sp_t hs] at h
        rcases ih h with ⟨hm, hns⟩ | h32
        · exact Or.inl ⟨List.mem_cons_of_mem _ hm, hns⟩
        · exact Or.inr h32
      | false =>
        rw [collapseWs_cons_sp_f hs] at h
        rcases List.mem_cons.1 h with rfl | h'
        · exact Or.inr rfl
        · rcases ih h' with ⟨hm, hns⟩ | h32
          · exact Or.inl ⟨List.mem_cons_of_mem _ hm, hns⟩
          · exact Or.inr h32
    · rw [collapseWs_cons_nsp (Bool.not_eq_true _ ▸ hs)] at h
      rcases List.mem_cons.1 h with rfl | h'
      · exact Or.inl ⟨List.mem_cons_self _ _, Bool.not_eq_true _ ▸ hs⟩
      · rcases ih h' with ⟨hm, hns⟩ | h32
        · exact Or.inl ⟨List.mem_cons_of_mem _ hm, hns⟩
        · exact Or.inr h32

theorem mem_stripEnds {c : Nat} {t : Text} (h : c ∈ stripEnds t) : c ∈ t := by
  unfold stripEnds at h
  rw [List.mem_reverse] at h
  have h2 := (List.dropWhile_sublist _).mem h
  rw [List.mem_reverse] at h2
  exact (List.dropWhile_sublist _).mem h2

theorem noDoubleWs_tail {a : Nat} {t : Text} (h : noDoubleWs (a :: t) = true) :
    noDoubleWs t = true := by
  cases t with
  | nil => rfl
  | cons b r =>
    rw [noDoubleWs_cons₂, Bool.and_eq_true] at h
    exact h.2

theorem noDoubleWs_dropWhile {t : Text} (p : Nat → Bool) (h : noDoubleWs t = true) :
    noDoubleWs (t.dropWhile p) = true := by
  induction t with
  | nil => exact h
  | cons a r ih =>
    rw [List.dropWhile_cons]
    split
    · exact ih (noDoubleWs_tail h)
    · exact h

/-- The pairwise relation underlying `noDoubleWs`. -/
def WsApart (a b : Nat) : Prop := ¬(isSpaceCh a = true ∧ isSpaceCh b = true)

theorem noDoubleWs_iff_chain' (t : Text) :
    noDoubleWs t = true ↔ t.Chain' WsApart := by
  induction t with
  | nil => simp [noDoubleWs]
  | cons a r ih =>
    cases r with
    | nil => simp [noDoubleWs, WsApart]
    | cons b s =>
      rw [List.chain'_cons, ← ih, noDoubleWs_cons₂, Bool.and_eq_true,
        Bool.not_eq_true', Bool.and_eq_false_iff]
      unfold WsApart
      constructor
      · rintro ⟨h1, h2⟩
        refine ⟨?_, h2⟩
        rintro ⟨ha, hb⟩
        rcases h1 with h | h
        · rw [h] at ha; exact Bool.false_ne_true ha
        · rw [h] at hb; exact Bool.false_ne_true hb
      · rintro ⟨h1, h2⟩
        refine ⟨?_, h2⟩
        by_cases ha : isSpaceCh a = true
        · by_cases hb : isSpaceCh b = true
          · exact absurd ⟨ha, hb⟩ h1
          · exact Or.inr (Bool.not_eq_true _ ▸ hb)
        · exact Or.inl (Bool.not_eq_true _ ▸ ha)

theorem noDoubleWs_reverse {t : Text} (h : noDoubleWs t = true) :
    noDoubleWs t.reverse = true := by
  rw [noDoubleWs_iff_chain'] at h ⊢
  rw [List.chain'_reverse]
  exact List.Chain'.imp (fun a b hab hba => hab ⟨hba.2, hba.1⟩) h

theorem headWs_dropWhile (t : Text) : headWs (t.dropWhile isSpaceCh) = false := by
  induction t with
  | nil => rfl
  | cons a r ih =>
    rw [List.dropWhile_cons]
    split
    · exact ih
    · next h => rw [headWs_cons]; exact Bool.not_eq_true _ ▸ h

theorem collapseWs_canon : ∀ (t : Text) (p : Bool),
    noDoubleWs (collapseWs t p) = true ∧
    (p = true → headWs (collapseWs t p) = false) := by
  intro t
  induction t with
  | nil => intro p; exact ⟨rfl, fun _ => rfl⟩
  | cons a r ih =>
    intro p
    by_cases hs : isSpaceCh a = true
    · cases p with
      | true =>
        rw [collapseWs_cons_sp_t hs]
        exact ⟨(ih true).1, fun _ => (ih true).2 rfl⟩
      | false =>
        rw [collapseWs_cons_sp_f hs]
        constructor
        · cases hr : collapseWs r true with
          | nil => rfl
          | cons d s =>
            have hhead := (ih true).2 rfl
            rw [hr, headWs_cons] at hhead
            rw [noDoubleWs_cons₂, Bool.and_eq_true, Bool.not_eq_true', Bool.and_eq_false_iff]
            exact ⟨Or.inr hhead, hr ▸ (ih true).1⟩
        · intro hp; exact absurd hp (by simp)
    · rw [collapseWs_cons_nsp (Bool.not_eq_true _ ▸ hs)]
      constructor
      · cases hr : collapseWs r false with
        | nil => rfl
        | cons d s =>
          rw [noDoubleWs_cons₂, Bool.and_eq_true, Bool.not_eq_true', Bool.and_eq_false_iff]
          exact ⟨Or.inl (Bool.not_eq_true _ ▸ hs), hr ▸ (ih false).1⟩
      · intro _; rw [headWs_cons]; exact Bool.not_eq_true _ ▸ hs

theorem map_fixed {f : Nat → Nat} : ∀ {t : Text}, (∀ c ∈ t, f c = c) → t.map f = t := by
  intro t
  induction t with
  | nil => intro _; rfl
  | cons a r ih =>
    intro h
    simp only [List.map_cons]
    rw [h a (List.mem_cons_self _ _), ih (fun c hc => h c (List.mem_cons_of_mem _ hc))]

theorem collapseWs_fixed : ∀ {t : Text}, (∀ c ∈ t, isCanonCh c = true) →
    noDoubleWs t = true → ∀ {p : Bool}, (p = true → headWs t = false) →
    collapseWs t p = t := by
  intro t
  induction t with
  | nil => intro _ _ p _; cases p <;> rfl
  | cons a r ih =>
    intro hcanon hnd p hp
    by_cases hs : isSpaceCh a = true
    · have ha32 : a = 32 := by
        have hc := hcanon a (List.mem_cons_self _ _)
        unfold isCanonCh at hc
        rw [Bool.and_eq_true, Bool.or_eq_true] at hc
        rcases hc.1 with hw | h32
        · rw [word_not_space hw] at hs; exact absurd hs (by simp)
        · exact eq_of_beq h32
      have hpfalse : p = false := by
        cases p with
        | false => rfl
        | true =>
          have hh := hp rfl
          rw [headWs_cons, hs] at hh
          exact absurd hh (by simp)
      subst hpfalse
      rw [collapseWs_cons_sp_f hs, ha32]
      congr 1
      refine ih (fun c hc => hcanon c (List.mem_cons_of_mem _ hc)) (noDoubleWs_tail hnd) ?_
      intro _
      cases r with
      | nil => rfl
      | cons b s =>
        rw [noDoubleWs_cons₂, Bool.and_eq_true, Bool.not_eq_true', Bool.and_eq_false_iff] at hnd
        rcases hnd.1 with h | h
        · rw [hs] at h; exact absurd h (by simp)
        · rw [headWs_cons]; exact h
    · rw [collapseWs_cons_nsp (Bool.not_eq_true _ ▸ hs)]
      congr 1
      exact ih (fun c hc => hcanon c (List.mem_cons_of_mem _ hc)) (noDoubleWs_tail hnd)
        (fun h => absurd h (by simp))

theorem dropWhile_of_headWs_false {t : Text} (h : headWs t = false) :
    t.dropWhile isSpaceCh = t := by
  cases t with
  | nil => rfl
  | cons a r =>
    rw [headWs_cons] at h
    rw [List.dropWhile_cons, if_neg (by rw [h]; simp)]

theorem stripEnds_fixed {t : Text} (h1 : headWs t = false)
    (h2 : headWs t.reverse = false) : stripEnds t = t := by
  unfold stripEnds
  rw [dropWhile_of_headWs_false h1, dropWhile_of_headWs_false h2, List.reverse_reverse]

theorem canon_normalizeText (t : Text) : canonStr (normalizeText t) = true := by
  unfold normalizeText
  split
  · rfl
  · set s := collapseWs (stripNonWord (lowerStr t)) false with hs
    have hcanon : ∀ c ∈ stripEnds s, isCanonCh c = true := by
      intro c hc
      rcases mem_collapseWs (mem_stripEnds hc) with ⟨hmem, hnsp⟩ | h32
      · rcases mem_stripNonWord hmem with ⟨hml, hws⟩ | h32
        · have hword : isWordCh c = true := by
            rw [Bool.or_eq_true] at hws
            rcases hws with hw | hsp
            · exact hw
            · rw [hsp] at hnsp; exact absurd hnsp (by simp)
          unfold isCanonCh
          rw [Bool.and_eq_true, Bool.or_eq_true]
          exact ⟨Or.inl hword, beq_iff_eq .. |>.2 (mem_lowerStr hml)⟩
        · subst h32; rfl
      · subst h32; rfl
    have hnd : noDoubleWs (stripEnds s) = true := by
      unfold stripEnds
      exact noDoubleWs_reverse (noDoubleWs_dropWhile _
        (noDoubleWs_reverse (noDoubleWs_dropWhile _ (collapseWs_canon _ false).1)))
    have hhead2 : headWs (stripEnds s).reverse = false := by
      unfold stripEnds
      rw [List.reverse_reverse]
      exact headWs_dropWhile _
    have hhead1 : headWs (stripEnds s) = false := by
      unfold stripEnds
      set m := s.dropWhile isSpaceCh with hm
      have hsplit : m = (m.reverse.dropWhile isSpaceCh).reverse ++
          (m.reverse.takeWhile isSpaceCh).reverse := by
        rw [← List.reverse_append, List.takeWhile_append_dropWhile, List.reverse_reverse]
      cases hk : (m.reverse.dropWhile isSpaceCh).reverse with
      | nil => rfl
      | cons c r =>
        have hmhead : headWs m = false := headWs_dropWhile _
        rw [hsplit, hk] at hmhead
        rw [headWs_cons]
        rw [List.cons_append, headWs_cons] at hmhead
        exact hmhead
    unfold canonStr
    rw [Bool.and_eq_true, Bool.and_eq_true, Bool.and_eq_true]
    refine ⟨⟨⟨List.all_eq_true.2 hcanon, hnd⟩, ?_⟩, ?_⟩
    · rw [hhead1]; rfl
    · rw [hhead2]; rfl

theorem normalizeText_of_canon {t : Text} (h : canonStr t = true) :
    normalizeText t = t := by
  unfold canonStr at h
  rw [Bool.and_eq_true, Bool.and_eq_true, Bool.and_eq_true] at h
  obtain ⟨⟨⟨hall, hnd⟩, hh1⟩, hh2⟩ := h
  rw [Bool.not_eq_true'] at hh1 hh2
  have hcanon : ∀ c ∈ t, isCanonCh c = true := List.all_eq_true.1 hall
  unfold normalizeText
  split
  · next heq => exact heq.symm
  · have hlower : lowerStr t = t := by
      refine map_fixed ?_
      intro c hc
      have hc' := hcanon c hc
      unfold isCanonCh at hc'
      rw [Bool.and_eq_true] at hc'
      exact eq_of_beq hc'.2
    have hnw : stripNonWord t = t := by
      refine map_fixed ?_
      intro c hc
      have hc' := hcanon c hc
      unfold isCanonCh at hc'
      rw [Bool.and_eq_true, Bool.or_eq_true] at hc'
      rcases hc'.1 with hw | h32
      · rw [if_neg (by rw [hw]; simp)]
      · have hc32 : c = 32 := eq_of_beq h32
        subst hc32
        rw [if_neg (by simp [isSpaceCh])]
    rw [hlower, hnw, collapseWs_fixed hcanon hnd (fun hF => absurd hF (by simp)),
      stripEnds_fixed hh1 hh2]

/-- C6: `normalize_text` is a total function of its input: `None` and the
empty string map to the empty string, and the function is idempotent on
every string. -/
theorem normalize_total_idempotent :
    normalizeTextOpt none = [] ∧ normalizeTextOpt (some []) = [] ∧
    ∀ x : Text, normalizeText (normalizeText x) = normalizeText x :=
  ⟨rfl, rfl, fun x => normalizeText_of_canon (canon_normalizeText x)⟩

/-- `pat` occurs at the head of the second string. -/
def leadsWith : Text → Text → Bool
  | [], _ => true
  | _ :: _, [] => false
  | p :: ps, c :: cs => p == c && leadsWith ps cs

/-- Python `pat in s` on strings: contiguous substring test. -/
def isSub (pat : Text) : Text → Bool
  | [] => leadsWith pat []
  | c :: cs => leadsWith pat (c :: cs) || isSub pat cs

/-- A similarity scorer.  `FeatureMapper` loads it from configuration
(`similarity_algorithm`); `FeatureMappingModule` uses
`SequenceMatcher.ratio`.  The mapping engine is uniform in it, so it is
kept as a parameter. -/
abbrev Sim := Text → Text → ℚ

/-- `FeatureMappingModule.calculate_similarity`: normalize both texts and
apply the scorer. -/
def calculateSimilarity (sim : Sim) (t1 t2 : Text) : ℚ :=
  sim (normalizeText t1) (normalizeText t2)

/-- `get_category_boost` (identical in both source files): the first
configured category whose lower-cased name occurs in the normalized
feature text gives its boost, else 0. -/
def getCategoryBoost (boosts : List (Text × ℚ)) (ft : Text) : ℚ :=
  match boosts.find? (fun cb => isSub (lowerStr cb.1) (normalizeText ft)) with
  | some cb => cb.2
  | none => 0

/-- `check_dealership_override` (identical in both source files): the
first override pattern whose lower-cased form is a substring of the
normalized feature text wins, with confidence fixed at 1. -/
def checkDealershipOverride (ov : List (Text × Text)) (ft : Text) : Option (Text × ℚ) :=
  (ov.find? (fun pc => isSub (lowerStr pc.1) (normalizeText ft))).map (fun pc => (pc.2, 1))

/-- The fuzzy pass of `FeatureMappingModule.map_feature`: fold over the
mapping dictionary tracking the best boosted score
`min(1.0, similarity + category_boost)` and its checkbox; an entry
replaces the running best only on a strictly greater score. -/
def fuzzyBest (dict : List (Text × Text)) (boosts : List (Text × ℚ))
    (sim : Sim) (ft : Text) : Option Text × ℚ :=
  dict.foldl (fun best pc =>
    let s := calculateSimilarity sim pc.1 (normalizeText ft)
    let f := min 1 (s + getCategoryBoost boosts ft)
    if f > best.2 then (some pc.2, f) else best) ((none : Option Text), (0 : ℚ))

/-- `FeatureMappingModule.map_feature`: falsy-input guard, dealership
override, exact normalized match (confidence 1), then the fuzzy pass
checked against the threshold.  The final `if best_match and
best_score >= self.confidence_threshold` uses Python truthiness, so a
`None` best match — and an empty-string checkbox name — never matches. -/
def mapFeature (ov dict : List (Text × Text)) (boosts : List (Text × ℚ))
    (thr : ℚ) (sim : Sim) (ft : Text) : Option (Text × ℚ) :=
  if ft = [] then none
  else
    match checkDealershipOverride ov ft with
    | some r => some r
    | none =>
      match dict.find? (fun pc => normalizeText pc.1 == normalizeText ft) with
      | some pc => some (pc.2, 1)
      | none =>
        match fuzzyBest dict boosts sim ft with
        | (some bm, bs) => if bm ≠ [] ∧ bs ≥ thr then some (bm, bs) else none
        | (none, _) => none

/-- `FeatureMapper._map_single_feature`: dealership override, direct raw
alias lookup (`feature_text in aliases`), then fuzzy matching over every
(label, alias) pair on the lower-cased raw strings; the threshold check
is `best_score >= self.confidence_threshold` and the function returns
only the label. -/
def mapSingleFeature (ov : List (Text × Text)) (fm : List (Text × List Text))
    (boosts : List (Text × ℚ)) (thr : ℚ) (sim : Sim) (ft : Text) : Option Text :=
  match checkDealershipOverride ov ft with
  | some r => some r.1
  | none =>
    match fm.find? (fun va => va.2.contains ft) with
    | some va => some va.1
    | none =>
      let best := fm.foldl (fun best va =>
        va.2.foldl (fun best al =>
          let base := sim (lowerStr ft) (lowerStr al)
          let f := min 1 (base + getCategoryBoost boosts ft)
          if f > best.2 then (some va.1, f) else best) best)
        ((none : Option Text), (0 : ℚ))
      if best.2 ≥ thr then best.1 else none

/-- Python dict assignment `d[k] = v` on an insertion-ordered association
list: update in place if the key exists, else append. -/
def dictSet : List (Text × Bool) → Text → Bool → List (Text × Bool)
  | [], k, v => [(k, v)]
  | (a, b) :: rest, k, v =>
    if a = k then (a, v) :: rest else (a, b) :: dictSet rest k v

/-- The body of the loop in `FeatureMapper.map_features`:
`if vAuto_feature: mapped_features[vAuto_feature] = True` (Python
truthiness: `None` and the empty string are skipped). -/
def mapFeaturesStep (ov : List (Text × Text)) (fm : List (Text × List Text))
    (boosts : List (Text × ℚ)) (thr : ℚ) (sim : Sim)
    (acc : List (Text × Bool)) (f : Text) : List (Text × Bool) :=
  match mapSingleFeature ov fm boosts thr sim f with
  | some lbl => if lbl ≠ [] then dictSet acc lbl true else acc
  | none => acc

/-- `FeatureMapper.map_features`: fold the loop body over the extracted
features, starting from the empty dictionary. -/
def mapFeatures (ov : List (Text × Text)) (fm : List (Text × List Text))
    (boosts : List (Text × ℚ)) (thr : ℚ) (sim : Sim)
    (features : List Text) : List (Text × Bool) :=
  features.foldl (mapFeaturesStep ov fm boosts thr sim) []

/-- The identically-zero scorer, a legitimate instantiation wherever the
fuzzy pass never fires or compares completely dissimilar strings (note
`SequenceMatcher.ratio` is 0 on strings without common characters). -/
def zeroSim : Sim := fun _ _ => 0

/-- A constant scorer used to exhibit the threshold boundary. -/
def halfSim : Sim := fun _ _ => 1 / 2

/-- C1 (counterexample): the override table matches on the LOWER-CASED
pattern, not on its normalized form.  With override pattern `"a-b"` and
feature text `"a b"`, the pattern's normalized form `"a b"` is a
substring of the normalized feature text, yet `map_feature` returns
`None` instead of the override checkbox. -/
theorem override_normalized_pattern_counterexample :
    isSub (normalizeText [97, 45, 98]) (normalizeText [97, 32, 98]) = true ∧
    mapFeature [([97, 45, 98], [88])] [] [] 1 zeroSim [97, 32, 98] = none := by
  constructor
  · decide
  · decide

/-- C1 (amended): for every non-empty feature text such that some
override pattern's LOWER-CASED form is a substring of the normalized
feature text, `map_feature` returns the first such override's checkbox
with confidence 1, independently of the mapping dictionary, the boosts,
the threshold and the scorer — so the override bypasses exact matching,
fuzzy matching and the confidence threshold. -/
theorem override_always_wins (ov : List (Text × Text)) (ft : Text)
    (hft : ft ≠ []) (p : Text × Text)
    (hp : ov.find? (fun pc => isSub (lowerStr pc.1) (normalizeText ft)) = some p) :
    ∀ (dict : List (Text × Text)) (boosts : List (Text × ℚ)) (thr : ℚ) (sim : Sim),
      mapFeature ov dict boosts thr sim ft = some (p.2, 1) := by
  intro dict boosts thr sim
  unfold mapFeature checkDealershipOverride
  rw [if_neg hft, hp]
  rfl

/-- Witness for C1: feature text `"LEA"` against override pattern
`"lea"`, a conflicting mapping dictionary, and threshold 9/10. -/
theorem override_always_wins_witness :
    mapFeature [([108, 101, 97], [99])] [([108, 101, 97], [100])] []
      (9 / 10) zeroSim [76, 69, 65] = some ([99], 1) :=
  override_always_wins [([108, 101, 97], [99])] [76, 69, 65] (by decide)
    ([108, 101, 97], [99]) (by decide) [([108, 101, 97], [100])] [] (9 / 10) zeroSim

/-- C7 (counterexample): with threshold 0 and a dictionary entry that is
completely dissimilar from the feature text, the best boosted score (0)
equals the threshold exactly, yet `map_feature` rejects the feature:
a zero score never replaces the initial `best_match = None`, and
`if best_match and ...` then fails. -/
theorem threshold_equality_counterexample :
    (fuzzyBest [([97], [98])] [] zeroSim [122]).2 = (0 : ℚ) ∧
    (0 : ℚ) = 0 ∧
    mapFeature [] [([97], [98])] [] 0 zeroSim [122] = none := by
  have hfz : fuzzyBest [([97], [98])] [] zeroSim [122] = (none, 0) := by
    norm_num [fuzzyBest, calculateSimilarity, zeroSim, getCategoryBoost]
  refine ⟨by rw [hfz], rfl, ?_⟩
  unfold mapFeature
  rw [if_neg (by decide), show checkDealershipOverride [] [122] = none from rfl,
    show List.find? (fun pc => normalizeText pc.1 == normalizeText [122]) [([97], [98])]
      = none by decide, hfz]

/-- C7 (amended): in the fuzzy pass (no override, no exact match), when a
best candidate with a non-empty checkbox label has been retained, the
threshold comparison is `>=`: a best boosted score equal to the
threshold matches and the (label, score) pair is returned; the fuzzy
candidate is rejected exactly when the best score is strictly below the
threshold. -/
theorem threshold_boundary (ov dict : List (Text × Text)) (boosts : List (Text × ℚ))
    (thr : ℚ) (sim : Sim) (ft : Text) (l : Text) (s : ℚ)
    (hft : ft ≠ [])
    (hov : checkDealershipOverride ov ft = none)
    (hex : dict.find? (fun pc => normalizeText pc.1 == normalizeText ft) = none)
    (hfz : fuzzyBest dict boosts sim ft = (some l, s))
    (hl : l ≠ []) :
    (thr ≤ s → mapFeature ov dict boosts thr sim ft = some (l, s)) ∧
    (s < thr → mapFeature ov dict boosts thr sim ft = none) := by
  have key : mapFeature ov dict boosts thr sim ft =
      if l ≠ [] ∧ s ≥ thr then some (l, s) else none := by
    unfold mapFeature
    rw [if_neg hft, hov, hex, hfz]
  rw [key]
  constructor
  · intro h
    rw [if_pos ⟨hl, h⟩]
  · intro h
    rw [if_neg]
    rintro ⟨-, h2⟩
    exact absurd h2 (not_le.2 h)

/-- Witness for C7: a scorer giving 1/2 against threshold exactly 1/2
produces a match at the boundary. -/
theorem threshold_boundary_witness :
    mapFeature [] [([97], [98])] [] (1 / 2) halfSim [122] = some ([98], 1 / 2) :=
  (threshold_boundary [] [([97], [98])] [] (1 / 2) halfSim [122] [98] (1 / 2)
    (by decide) rfl (by decide)
    (by norm_num [fuzzyBest, calculateSimilarity, halfSim, getCategoryBoost])
    (by decide)).1 (le_refl _)

theorem mem_dictSet {x : Text} {b : Bool} :
    ∀ {d : List (Text × Bool)} {k : Text} {v : Bool}, (x, b) ∈ dictSet d k v →
      (x, b) ∈ d ∨ (x = k ∧ b = v) := by
  intro d
  induction d with
  | nil =>
    intro k v h
    rcases List.mem_singleton.1 h with h
    exact Or.inr ⟨congrArg Prod.fst h, congrArg Prod.snd h⟩
  | cons hd rest ih =>
    intro k v h
    obtain ⟨a, c⟩ := hd
    unfold dictSet at h
    split at h
    · next heq =>
      rcases List.mem_cons.1 h with h' | h'
      · exact Or.inr ⟨heq ▸ congrArg Prod.fst h', congrArg Prod.snd h'⟩
      · exact Or.inl (List.mem_cons_of_mem _ h')
    · rcases List.mem_cons.1 h with h' | h'
      · exact Or.inl (h' ▸ List.mem_cons_self _ _)
      · rcases ih h' with h'' | h''
        · exact Or.inl (List.mem_cons_of_mem _ h'')
        · exact Or.inr h''

theorem mem_mapFeatures_aux (ov : List (Text × Text)) (fm : List (Text × List Text))
    (boosts : List (Text × ℚ)) (thr : ℚ) (sim : Sim) :
    ∀ (fs : List Text) (acc : List (Text × Bool)) (x : Text) (b : Bool),
      (x, b) ∈ fs.foldl (mapFeaturesStep ov fm boosts thr sim) acc →
      (x, b) ∈ acc ∨
        (b = true ∧ ∃ f ∈ fs, mapSingleFeature ov fm boosts thr sim f = some x) := by
  intro fs
  induction fs with
  | nil => intro acc x b h; exact Or.inl h
  | cons f fs' ih =>
    intro acc x b h
    rw [List.foldl_cons] at h
    rcases ih _ x b h with h0 | ⟨hb, g, hg, hmap⟩
    · cases hm : mapSingleFeature ov fm boosts thr sim f with
      | none => simp only [mapFeaturesStep, hm] at h0; exact Or.inl h0
      | some lbl =>
        simp only [mapFeaturesStep, hm] at h0
        by_cases hlbl : lbl ≠ []
        · rw [if_pos hlbl] at h0
          rcases mem_dictSet h0 with h1 | ⟨rfl, rfl⟩
          · exact Or.inl h1
          · exact Or.inr ⟨rfl, f, List.mem_cons_self _ _, hm⟩
        · rw [if_neg hlbl] at h0
          exact Or.inl h0
    · exact Or.inr ⟨hb, g, List.mem_cons_of_mem _ hg, hmap⟩

/-- C8: every entry of the batch mapping produced by `map_features` is a
label that some input string resolved to, and its value is `True`; no
label is ever mapped to `False`, so an unmatched catalog label is simply
absent ("leave unchanged", not "uncheck"). -/
theorem map_features_only_true (ov : List (Text × Text)) (fm : List (Text × List Text))
    (boosts : List (Text × ℚ)) (thr : ℚ) (sim : Sim)
    (features : List Text) (x : Text) (b : Bool)
    (h : (x, b) ∈ mapFeatures ov fm boosts thr sim features) :
    b = true ∧ ∃ f ∈ features, mapSingleFeature ov fm boosts thr sim f = some x := by
  rcases mem_mapFeatures_aux ov fm boosts thr sim features [] x b h with h0 | h1
  · simp at h0
  · exact h1

/-- Witness for C8, the Bluetooth/Sunroof scenario: mapping the single
string `"b"` against catalog labels `"b"` and `"s"` yields exactly
`{"b": True}`; the label `"s"` is absent with either value, not set to
`False`. -/
theorem map_features_only_true_witness :
    (([98], true) ∈ mapFeatures [] [([98], [[98]]), ([115], [[115]])] [] 1 zeroSim [[98]]) ∧
    (true = true ∧ ∃ f ∈ [[98]],
      mapSingleFeature [] [([98], [[98]]), ([115], [[115]])] [] 1 zeroSim f = some [98]) ∧
    (([115], true) ∉ mapFeatures [] [([98], [[98]]), ([115], [[115]])] [] 1 zeroSim [[98]]) ∧
    (([115], false) ∉ mapFeatures [] [([98], [[98]]), ([115], [[115]])] [] 1 zeroSim [[98]]) :=
  ⟨by decide,
   map_features_only_true [] [([98], [[98]]), ([115], [[115]])] [] 1 zeroSim
     [[98]] [98] true (by decide),
   by decide, by decide⟩

/-- The outcome of one `NovaActEngine.execute_action` call together with
the instrumentation the claims under check talk about: how many times
the action body ran, and which exponential-backoff sleep durations
occurred.  A raised exception is the `Except.error` case carrying the
data of the message
`f"Action failed after {max_retries} attempts: {last_error}"`. -/
structure ExecTrace (E A : Type) where
  result : Except (Int × Option E) A
  invocations : Nat
  backoffs : List Nat

/-- The `while attempts < max_retries` loop of
`NovaActEngine.execute_action`, recursing on the remaining number of
permitted attempts (`max_retries - attempts`).  The action is modelled
as a function from the 0-based attempt index to its outcome; the
`ensure_browser` call inside the `try` block is absorbed into the action
outcome.  On an exception with attempts remaining the loop sleeps
`2 ** attempts` (with `attempts` already incremented) and retries;
otherwise it breaks and raises, reporting `max_retries` and the last
observed error. -/
def runAttempts (action : Nat → Except E A) (maxRetries : Int) :
    Nat → Nat → Option E → ExecTrace E A
  | _, 0, lastErr => ⟨.error (maxRetries, lastErr), 0, []⟩
  | i, rem + 1, _ =>
    match action i with
    | .ok a => ⟨.ok a, 1, []⟩
    | .error e =>
      let t := runAttempts action maxRetries (i + 1) rem (some e)
      ⟨t.result, t.invocations + 1,
        (if 0 < rem then [2 ^ (i + 1)] else []) ++ t.backoffs⟩

/-- `NovaActEngine.execute_action` with an explicit `max_retries`
argument (a Python int): attempts start at 0 with no recorded error. -/
def executeAction (action : Nat → Except E A) (maxRetries : Int) : ExecTrace E A :=
  runAttempts action maxRetries 0 maxRetries.toNat none

theorem runAttempts_all_fail (action : Nat → Except E A) (errs : Nat → E)
    (hfail : ∀ i, action i = .error (errs i)) (m : Int) :
    ∀ (fuel : Nat), 0 < fuel → ∀ (i : Nat) (le : Option E),
      (runAttempts action m i fuel le).result = .error (m, some (errs (i + fuel - 1))) ∧
      (runAttempts action m i fuel le).invocations = fuel := by
  intro fuel
  induction fuel with
  | zero => intro h; exact absurd h (by omega)
  | succ rem ih =>
    intro _ i le
    simp only [runAttempts, hfail i]
    cases rem with
    | zero =>
      simp [runAttempts]
    | succ r =>
      obtain ⟨hres, hinv⟩ := ih (by omega) (i + 1) (some (errs i))
      have hidx : i + 1 + (r + 1) - 1 = i + (r + 1 + 1) - 1 := by omega
      rw [hidx] at hres
      exact ⟨hres, by rw [hinv]⟩

theorem runAttempts_first_ok (action : Nat → Except E A) (m : Int) (a : A) :
    ∀ (j : Nat), ∀ (i fuel : Nat) (le : Option E), j < fuel →
      (∀ d, d < j → ∃ e, action (i + d) = .error e) → action (i + j) = .ok a →
      (runAttempts action m i fuel le).result = .ok a ∧
      (runAttempts action m i fuel le).invocations = j + 1 := by
  intro j
  induction j with
  | zero =>
    intro i fuel le hf _ hok
    cases fuel with
    | zero => exact absurd hf (by omega)
    | succ rem =>
      rw [Nat.add_zero] at hok
      simp [runAttempts, hok]
  | succ j' ih =>
    intro i fuel le hf hfail hok
    cases fuel with
    | zero => exact absurd hf (by omega)
    | succ rem =>
      obtain ⟨e, he⟩ := hfail 0 (by omega)
      rw [Nat.add_zero] at he
      simp only [runAttempts, he]
      have hidx : i + (j' + 1) = i + 1 + j' := by omega
      rw [hidx] at hok
      obtain ⟨hres, hinv⟩ := ih (i + 1) rem (some e) (by omega)
        (fun d hd => by
          obtain ⟨e', he'⟩ := hfail (d + 1) (by omega)
          have : i + (d + 1) = i + 1 + d := by omega
          rw [this] at he'
          exact ⟨e', he'⟩) hok
      exact ⟨hres, by rw [hinv]⟩

/-- C3: an action raising on every invocation is invoked exactly
`max_retries` times before `execute_action` raises an error reporting
the attempt count (`max_retries`) and the last error; an action that
first succeeds on 1-based attempt `k = j + 1 ≤ max_retries` has its
result returned after exactly `k` invocations. -/
theorem execute_action_retry_contract :
    (∀ (E A : Type) (action : Nat → Except E A) (errs : Nat → E) (m : Int),
      0 < m → (∀ i, action i = .error (errs i)) →
      (executeAction action m).result = .error (m, some (errs (m.toNat - 1))) ∧
      (executeAction action m).invocations = m.toNat) ∧
    (∀ (E A : Type) (action : Nat → Except E A) (m : Int) (j : Nat) (a : A),
      (∀ i, i < j → ∃ e, action i = .error e) → action j = .ok a → (j : Int) < m →
      (executeAction action m).result = .ok a ∧
      (executeAction action m).invocations = j + 1) := by
  constructor
  · intro E A action errs m hm hfail
    have h := runAttempts_all_fail action errs hfail m m.toNat (by omega) 0 none
    rw [Nat.zero_add] at h
    exact h
  · intro E A action m j a hfail hok hj
    refine runAttempts_first_ok action m a j 0 m.toNat none (by omega) ?_ ?_
    · intro d hd
      obtain ⟨e, he⟩ := hfail d hd
      rw [Nat.zero_add]
      exact ⟨e, he⟩
    · rw [Nat.zero_add]
      exact hok

/-- An action that raises on every attempt. -/
def alwaysFailAct : Nat → Except Nat Nat := fun _ => .error 7

/-- An action that raises on the first attempt and succeeds on the
second. -/
def secondTryAct : Nat → Except Nat Nat := fun i => if i = 0 then .error 5 else .ok 42

/-- Witness for C3: with `max_retries = 2` the always-failing action runs
twice and the raised error carries the attempt count 2 and last error 7;
with `max_retries = 3` the second-try action returns 42 after exactly 2
invocations. -/
theorem execute_action_retry_contract_witness :
    (executeAction alwaysFailAct 2).result = .error (2, some 7) ∧
    (executeAction alwaysFailAct 2).invocations = 2 ∧
    (executeAction secondTryAct 3).result = .ok 42 ∧
    (executeAction secondTryAct 3).invocations = 2 := by
  obtain ⟨hA, hB⟩ := execute_action_retry_contract
  have h1 := hA ℕ ℕ alwaysFailAct (fun _ => 7) 2 (by norm_num) (fun _ => rfl)
  have h2 := hB ℕ ℕ secondTryAct 3 1 42
    (fun i hi => ⟨5, by
      have hi0 : i = 0 := by omega
      subst hi0
      rfl⟩)
    rfl (by norm_num)
  exact ⟨h1.1, h1.2, h2.1, h2.2⟩

/-- C9 (counterexample): called with `max_retries = -1` — a non-positive
value — the raised error reports `-1` attempts, not `0` attempts as the
claim states: the message interpolates the given `max_retries`. -/
theorem execute_action_negative_counterexample :
    (executeAction alwaysFailAct (-1)).result = .error (-1, none) ∧
    ((-1 : Int) ≠ 0) := by
  exact ⟨rfl, by decide⟩

/-- C9 (amended): for every non-positive `max_retries`, the loop body
never runs — the action is never invoked and no backoff sleep occurs —
and the call raises an error reporting failure after `max_retries`
attempts (0 when called with 0) with a last error of `None`. -/
theorem execute_action_nonpositive (E A : Type) (action : Nat → Except E A)
    (m : Int) (hm : m ≤ 0) :
    executeAction action m = ⟨.error (m, none), 0, []⟩ := by
  unfold executeAction
  have h0 : m.toNat = 0 := by omega
  rw [h0]
  rfl

/-- Witness for C9: `max_retries = 0` gives no invocation, no sleeps, and
the error payload (0, None). -/
theorem execute_action_nonpositive_witness :
    executeAction alwaysFailAct 0 = ⟨.error (0, none), 0, []⟩ :=
  execute_action_nonpositive ℕ ℕ alwaysFailAct 0 (le_refl 0)

/-- The session-relevant state of `NovaActEngine`: the browser handle and
the session start time, both `None` before initialization. -/
structure EngineState where
  browser : Option Nat
  sessionStartTime : Option ℚ
deriving DecidableEq

/-- `NovaActEngine.__init__`: no browser, no session start time. -/
def initialEngine : EngineState := ⟨none, none⟩

/-- `NovaActEngine.initialize_browser`: stores the new browser handle and
stamps the session start time. -/
def initializeBrowser (b : Nat) (now : ℚ) : EngineState := ⟨some b, some now⟩

/-- `NovaActEngine.close_browser`: when a browser exists, quit it —
whether or not `browser.quit` raises (the ignored flag), the `finally`
block clears both the handle and the start time; with no browser the
call does nothing. -/
def closeBrowser (st : EngineState) (_quitRaises : Bool) : EngineState :=
  if st.browser.isSome then ⟨none, none⟩ else st

/-- `NovaActEngine.is_session_valid`: `False` without a browser or a
start time; otherwise the liveness probe (`browser.current_url`) must
not raise and the session age in minutes must be below the configured
timeout. -/
def isSessionValid (st : EngineState) (now timeout : ℚ) (responsive : Bool) : Bool :=
  match st.browser, st.sessionStartTime with
  | some _, some t0 => if responsive then decide ((now - t0) / 60 < timeout) else false
  | _, _ => false

/-- Engine states reachable through the engine's lifecycle operations. -/
inductive Reachable : EngineState → Prop
  | init : Reachable initialEngine
  | browserInit (st : EngineState) (b : Nat) (now : ℚ) :
      Reachable st → Reachable (initializeBrowser b now)
  | close (st : EngineState) (r : Bool) :
      Reachable st → Reachable (closeBrowser st r)

theorem reachable_no_browser_no_time {st : EngineState} (h : Reachable st) :
    st.browser = none → st.sessionStartTime = none := by
  induction h with
  | init => intro _; rfl
  | browserInit st b now _ _ =>
    intro hb
    exact absurd hb (by simp [initializeBrowser])
  | close st r _ ih =>
    unfold closeBrowser
    split
    · intro _; rfl
    · exact ih

/-- C10: after any `close_browser` call from a reachable engine state —
even one in which quitting the underlying browser raised — both the
browser handle and the session start time are `None`; `is_session_valid`
then returns `False` for every probe outcome, clock and timeout, and a
second `close_browser` is a no-op. -/
theorem close_browser_clears_session {st : EngineState} (h : Reachable st) (r : Bool) :
    (closeBrowser st r).browser = none ∧
    (closeBrowser st r).sessionStartTime = none ∧
    (∀ (now timeout : ℚ) (resp : Bool),
      isSessionValid (closeBrowser st r) now timeout resp = false) ∧
    (∀ r' : Bool, closeBrowser (closeBrowser st r) r' = closeBrowser st r) := by
  have hclosed : closeBrowser st r = ⟨none, none⟩ := by
    unfold closeBrowser
    split
    · rfl
    · next hb =>
      obtain ⟨obr, ost⟩ := st
      simp only [Option.isSome] at hb
      cases obr with
      | some b => exact absurd rfl hb
      | none =>
        have h2 : ost = none := reachable_no_browser_no_time h rfl
        rw [h2]
  rw [hclosed]
  exact ⟨rfl, rfl, fun _ _ _ => rfl, fun _ => rfl⟩

/-- Witness for C10: initialize a browser, then close it with the quit
call raising; the state is fully cleared, the session is invalid at a
sample clock, and a repeated close changes nothing. -/
theorem close_browser_clears_session_witness :
    (closeBrowser (initializeBrowser 1 0) true).browser = none ∧
    (closeBrowser (initializeBrowser 1 0) true).sessionStartTime = none ∧
    isSessionValid (closeBrowser (initializeBrowser 1 0) true) 5 30 true = false ∧
    closeBrowser (closeBrowser (initializeBrowser 1 0) true) false =
      closeBrowser (initializeBrowser 1 0) true := by
  obtain ⟨h1, h2, h3, h4⟩ := close_browser_clears_session
    (Reachable.browserInit initialEngine 1 0 Reachable.init) true
  exact ⟨h1, h2, h3 5 30 true, h4 false⟩

/-- The per-run counters of `WorkflowModule.processing_stats` (the
timing fields carry no counter logic and are omitted). -/
structure RunStats where
  vehiclesProcessed : Nat
  successfulUpdates : Nat
  failedUpdates : Nat
  featuresFound : Nat
  featuresMapped : Nat
  checkboxesUpdated : Nat
deriving DecidableEq

/-- `WorkflowModule._reset_stats`: all counters zero. -/
def initStats : RunStats := ⟨0, 0, 0, 0, 0, 0⟩

/-- What happens to one vehicle inside the `try` block of
`WorkflowModule._process_vehicles`: where an exception is raised (if
anywhere), together with the numbers contributed by the steps that had
already completed.  The session-validity / re-authentication step
precedes feature extraction, so its failure has the same statistical
effect as `extractFail`. -/
inductive VehicleEvent
  | extractFail
  | mapFail (features : Nat)
  | updateFail (features mapped : Nat)
  | ok (features mapped updated failedBoxes : Nat)

/-- One iteration of the vehicle loop of
`WorkflowModule._process_vehicles`: on success the counters are bumped
in source order and `vehicles_processed` is incremented, then
`failed_updates` or `successful_updates` according to
`results['failed'] > 0`; the `except` handler only increments
`failed_updates`. -/
def processVehicle (s : RunStats) : VehicleEvent → RunStats
  | .extractFail => { s with failedUpdates := s.failedUpdates + 1 }
  | .mapFail f =>
      { s with featuresFound := s.featuresFound + f,
               failedUpdates := s.failedUpdates + 1 }
  | .updateFail f mp =>
      { s with featuresFound := s.featuresFound + f,
               featuresMapped := s.featuresMapped + mp,
               failedUpdates := s.failedUpdates + 1 }
  | .ok f mp u fb =>
      { s with featuresFound := s.featuresFound + f,
               featuresMapped := s.featuresMapped + mp,
               checkboxesUpdated := s.checkboxesUpdated + u,
               vehiclesProcessed := s.vehiclesProcessed + 1,
               failedUpdates := s.failedUpdates + (if 0 < fb then 1 else 0),
               successfulUpdates := s.successfulUpdates + (if 0 < fb then 0 else 1) }

/-- `WorkflowModule._process_vehicles`: fold the per-vehicle step over
the vehicle list. -/
def processVehicles (s : RunStats) (vs : List VehicleEvent) : RunStats :=
  vs.foldl processVehicle s

/-- C2 (counterexample): in a batch of three vehicles where vehicle 2's
extraction raises, the final `vehicles_processed` is 2, not 3: the
`except` handler does not increment it. -/
theorem vehicles_processed_counterexample :
    (processVehicles initStats
      [.ok 2 1 1 0, .extractFail, .ok 3 2 2 0]).vehiclesProcessed = 2 ∧
    (2 : Nat) ≠ 3 := by
  exact ⟨rfl, by decide⟩

/-- C2 (amended): in a batch of three vehicles where vehicle 2's feature
extraction raises and vehicles 1 and 3 complete with no failed checkbox
updates, vehicles 1 and 3 contribute all their feature/mapping/update
counts and one successful update each, vehicle 2's failure is recorded
as one failed update, and `vehicles_processed` ends at 2. -/
theorem batch_isolation (f1 m1 u1 f3 m3 u3 : Nat) :
    processVehicles initStats [.ok f1 m1 u1 0, .extractFail, .ok f3 m3 u3 0] =
      { vehiclesProcessed := 2, successfulUpdates := 2, failedUpdates := 1,
        featuresFound := f1 + f3, featuresMapped := m1 + m3,
        checkboxesUpdated := u1 + u3 } := by
  simp [processVehicles, processVehicle, initStats]

/-- One element of a correction history list:
`{'old': ..., 'new': ..., 'timestamp': ...}`. -/
structure CorrectionRec where
  old : Option Text
  new : Text
  stamp : Nat
deriving DecidableEq

/-- The state touched by `MappingLearner.record_correction`: the
in-memory corrections dictionary, the persisted contents of
`mapping_corrections.json`, and the mapper's `feature_mapping`
catalog. -/
structure LearnerState where
  corrections : List (Text × List CorrectionRec)
  savedCorrections : List (Text × List CorrectionRec)
  featureMapping : List (Text × List Text)
deriving DecidableEq

/-- `if k not in d: d[k] = []` followed by `d[k].append(r)` on an
insertion-ordered dictionary. -/
def dictAppendRec : List (Text × List CorrectionRec) → Text → CorrectionRec →
    List (Text × List CorrectionRec)
  | [], k, r => [(k, [r])]
  | (a, rs) :: rest, k, r =>
    if a = k then (a, rs ++ [r]) :: rest else (a, rs) :: dictAppendRec rest k r

/-- The call `self.mapper.add_mapping(feature_text, new_mapping)` in
`record_correction`: the class `FeatureMapper` (feature_mapper.py) defines
no method `add_mapping` (nor does any other class in the repository), so
the attribute access raises `AttributeError`. -/
def mapperAddMapping : Except Unit Unit := .error ()

/-- `MappingLearner.record_correction`: inside `try`, ensure a history
list exists for the feature and append the correction record, then call
the missing `mapper.add_mapping` — the `AttributeError` transfers
control to the `except` handler, which logs and returns `False`, so
`_save_corrections` and the alias addition are never reached and only
the in-memory history has changed.  (The dead `.ok` branch models the
intended write-through path.) -/
def recordCorrection (st : LearnerState) (ft : Text) (old : Option Text)
    (newLbl : Text) (stamp : Nat) : Bool × LearnerState :=
  let st1 := { st with corrections := dictAppendRec st.corrections ft ⟨old, newLbl, stamp⟩ }
  match mapperAddMapping with
  | .error _ => (false, st1)
  | .ok _ => (true, { st1 with savedCorrections := st1.corrections })

/-- C4 (code bug): `record_correction` on a fresh learner appends the
correction to the in-memory history but returns `False` without
persisting the history and without touching the catalog, because
`FeatureMapper.add_mapping` does not exist and the resulting
`AttributeError` is swallowed; consequently the very next mapping call
on the feature text still resolves to nothing, not to the corrected
label. -/
theorem record_correction_no_writethrough :
    recordCorrection ⟨[], [], []⟩ [104, 109] none [104, 101, 109] 0 =
      (false, ⟨[([104, 109], [⟨none, [104, 101, 109], 0⟩])], [], []⟩) ∧
    mapSingleFeature []
      (recordCorrection ⟨[], [], []⟩ [104, 109] none [104, 101, 109] 0).2.featureMapping
      [] 1 zeroSim [104, 109] = none := by
  have h1 : recordCorrection ⟨[], [], []⟩ [104, 109] none [104, 101, 109] 0 =
      (false, ⟨[([104, 109], [⟨none, [104, 101, 109], 0⟩])], [], []⟩) := rfl
  refine ⟨h1, ?_⟩
  rw [h1]
  norm_num [mapSingleFeature, checkDealershipOverride]

/-- `mapping_counts[new] = mapping_counts.get(new, 0) + 1` on an
insertion-ordered dictionary. -/
def dictIncr : List (Text × Nat) → Text → List (Text × Nat)
  | [], x => [(x, 1)]
  | (k, v) :: rest, x =>
    if k = x then (k, v + 1) :: rest else (k, v) :: dictIncr rest x

/-- The counting loop of `MappingLearner.suggest_improvements` over one
feature's correction list. -/
def buildCounts (cs : List CorrectionRec) : List (Text × Nat) :=
  cs.foldl (fun d c => dictIncr d c.new) []

/-- Python `max(items, key=lambda x: x[1])`: the first item attaining the
maximal second component. -/
def maxBySnd (x : Text × Nat) (ys : List (Text × Nat)) : Text × Nat :=
  ys.foldl (fun best y => if y.2 > best.2 then y else best) x

/-- The per-feature body of `MappingLearner.suggest_improvements`: with at
least 3 corrections, count the new labels, take the most common, and
suggest it when it accounts for at least 75% of the records.  For a
non-empty correction list `buildCounts` is non-empty, so the
empty-dictionary case (where Python's `max` would raise) is
unreachable. -/
def suggestStep (ft : Text) (cs : List CorrectionRec) : Option (Text × Text) :=
  if 3 ≤ cs.length then
    match buildCounts cs with
    | [] => none
    | x :: ys =>
      let mc := maxBySnd x ys
      if (3 : ℚ) / 4 ≤ (mc.2 : ℚ) / (cs.length : ℚ) then some (ft, mc.1) else none
  else none

/-- `MappingLearner.suggest_improvements`: the per-feature suggestions in
iteration order (dictionary keys are unique, so dictionary insertion is
an append). -/
def suggestImprovements (hist : List (Text × List CorrectionRec)) : List (Text × Text) :=
  hist.filterMap (fun e => suggestStep e.1 e.2)

/-- How many corrections in a history list carry the given new label. -/
def countNew (cs : List CorrectionRec) (l : Text) : Nat :=
  (cs.filter (fun c => c.new = l)).length

/-- The counts dictionary `d` represents the frequency function `g`:
membership holds exactly for the positive frequencies. -/
def CountsSpec (d : List (Text × Nat)) (g : Text → Nat) : Prop :=
  ∀ l k, (l, k) ∈ d ↔ (g l = k ∧ 0 < k)

theorem countsSpec_congr {d : List (Text × Nat)} {g1 g2 : Text → Nat}
    (h : ∀ l, g1 l = g2 l) (hs : CountsSpec d g1) : CountsSpec d g2 := by
  intro l k
  rw [← h l]
  exact hs l k

theorem countNew_cons (c : CorrectionRec) (cs : List CorrectionRec) (l : Text) :
    countNew (c :: cs) l = (if c.new = l then 1 else 0) + countNew cs l := by
  unfold countNew
  rw [List.filter_cons]
  by_cases h : c.new = l
  · simp [h]
    omega
  · simp [h]

theorem keys_dictIncr : ∀ (d : List (Text × Nat)) (x : Text),
    (dictIncr d x).map Prod.fst =
      if x ∈ d.map Prod.fst then d.map Prod.fst else d.map Prod.fst ++ [x] := by
  intro d x
  induction d with
  | nil => simp [dictIncr]
  | cons hd rest ih =>
    obtain ⟨k, v⟩ := hd
    unfold dictIncr
    by_cases hk : k = x
    · subst hk
      simp
    · rw [if_neg hk]
      simp only [List.map_cons, ih, List.mem_cons]
      by_cases hx : x ∈ rest.map Prod.fst
      · rw [if_pos hx, if_pos (Or.inr hx)]
      · rw [if_neg hx, if_neg (by rintro (h | h); exact hk h.symm; exact hx h),
          List.cons_append]

/-- The frequency function after one more occurrence of `x`. -/
def bumpAt (g : Text → Nat) (x : Text) : Text → Nat :=
  fun l => if l = x then g l + 1 else g l

theorem bumpAt_apply (g : Text → Nat) (x l : Text) :
    bumpAt g x l = if l = x then g l + 1 else g l := rfl

theorem dictIncr_spec : ∀ (d : List (Text × Nat)) (g : Text → Nat) (x : Text),
    CountsSpec d g → (d.map Prod.fst).Nodup →
    CountsSpec (dictIncr d x) (bumpAt g x) ∧
    ((dictIncr d x).map Prod.fst).Nodup := by
  intro d
  induction d with
  | nil =>
    intro g x hs _
    have hg0 : ∀ l, g l = 0 := by
      intro l
      by_contra hne
      exact absurd ((hs l (g l)).2 ⟨rfl, Nat.pos_of_ne_zero hne⟩) (List.not_mem_nil _)
    refine ⟨?_, by simp [dictIncr]⟩
    intro l k
    rw [bumpAt_apply]
    simp only [dictIncr, List.mem_singleton, Prod.mk.injEq]
    constructor
    · rintro ⟨rfl, rfl⟩
      rw [if_pos rfl, hg0 l]
      exact ⟨rfl, Nat.one_pos⟩
    · rintro ⟨hk, hpos⟩
      by_cases hlx : l = x
      · rw [if_pos hlx, hg0 l] at hk
        exact ⟨hlx, by omega⟩
      · rw [if_neg hlx, hg0 l] at hk
        omega
  | cons hd rest ih =>
    intro g x hs hnd
    obtain ⟨a, b⟩ := hd
    have hab : g a = b ∧ 0 < b := (hs a b).1 (List.mem_cons_self _ _)
    have hanin : a ∉ rest.map Prod.fst := by
      rw [List.map_cons] at hnd
      exact (List.nodup_cons.1 hnd).1
    have hndrest : (rest.map Prod.fst).Nodup := by
      rw [List.map_cons] at hnd
      exact (List.nodup_cons.1 hnd).2
    have hrest_ne : ∀ l k, (l, k) ∈ rest → l ≠ a := by
      intro l k hm hla
      subst hla
      exact hanin (List.mem_map.2 ⟨_, hm, rfl⟩)
    by_cases hax : a = x
    · subst hax
      refine ⟨?_, ?_⟩
      · intro l k
        rw [bumpAt_apply]
        unfold dictIncr
        rw [if_pos rfl]
        constructor
        · intro hmem
          rcases List.mem_cons.1 hmem with heq | hmem2
          · have h1 : l = a := congrArg Prod.fst heq
            have h2 : k = b + 1 := congrArg Prod.snd heq
            subst h1
            rw [if_pos rfl, hab.1, h2]
            exact ⟨rfl, by omega⟩
          · have hla : l ≠ a := hrest_ne l k hmem2
            rw [if_neg hla]
            exact (hs l k).1 (List.mem_cons_of_mem _ hmem2)
        · rintro ⟨hk, hpos⟩
          by_cases hla : l = a
          · subst hla
            rw [if_pos rfl, hab.1] at hk
            rw [← hk]
            exact List.mem_cons_self _ _
          · rw [if_neg hla] at hk
            rcases List.mem_cons.1 ((hs l k).2 ⟨hk, hpos⟩) with heq | hmem2
            · exact absurd (congrArg Prod.fst heq) hla
            · exact List.mem_cons_of_mem _ hmem2
      · unfold dictIncr
        rw [if_pos rfl]
        simpa using hnd
    · have hsrest : CountsSpec rest (fun l => if l = a then 0 else g l) := by
        intro l k
        show (l, k) ∈ rest ↔ (if l = a then 0 else g l) = k ∧ 0 < k
        by_cases hla : l = a
        · rw [if_pos hla]
          subst hla
          constructor
          · intro hmem
            exact absurd rfl (hrest_ne l k hmem)
          · rintro ⟨hk, hpos⟩
            omega
        · rw [if_neg hla]
          constructor
          · intro hmem
            exact (hs l k).1 (List.mem_cons_of_mem _ hmem)
          · intro hk
            rcases List.mem_cons.1 ((hs l k).2 hk) with heq | hmem2
            · exact absurd (congrArg Prod.fst heq) hla
            · exact hmem2
      obtain ⟨ihspec, ihnd⟩ := ih (fun l => if l = a then 0 else g l) x hsrest hndrest
      have ihspec2 : ∀ l k, (l, k) ∈ dictIncr rest x ↔
          ((if l = x then (if l = a then 0 else g l) + 1 else if l = a then 0 else g l) = k
            ∧ 0 < k) := by
        intro l k
        rw [ihspec l k, bumpAt_apply]
      refine ⟨?_, ?_⟩
      · intro l k
        rw [bumpAt_apply]
        unfold dictIncr
        rw [if_neg hax]
        by_cases hla : l = a
        · subst hla
          rw [if_neg hax]
          constructor
          · intro hmem
            rcases List.mem_cons.1 hmem with heq | hmem2
            · have h2 : k = b := congrArg Prod.snd heq
              exact ⟨by rw [hab.1, h2], by rw [h2]; exact hab.2⟩
            · have hthis := (ihspec2 l k).1 hmem2
              rw [if_neg hax, if_pos rfl] at hthis
              omega
          · rintro ⟨hk, hpos⟩
            rw [hab.1] at hk
            rw [← hk]
            exact List.mem_cons_self _ _
        · constructor
          · intro hmem
            rcases List.mem_cons.1 hmem with heq | hmem2
            · exact absurd (congrArg Prod.fst heq) hla
            · have hthis := (ihspec2 l k).1 hmem2
              by_cases hlx : l = x
              · rw [if_pos hlx] at hthis ⊢
                rw [if_neg hla] at hthis
                exact hthis
              · rw [if_neg hlx] at hthis ⊢
                rw [if_neg hla] at hthis
                exact hthis
          · intro hk
            refine List.mem_cons_of_mem _ ((ihspec2 l k).2 ?_)
            by_cases hlx : l = x
            · rw [if_pos hlx] at hk ⊢
              rw [if_neg hla]
              exact hk
            · rw [if_neg hlx] at hk ⊢
              rw [if_neg hla]
              exact hk
      · unfold dictIncr
        rw [if_neg hax]
        simp only [List.map_cons, List.nodup_cons]
        refine ⟨?_, ihnd⟩
        rw [keys_dictIncr]
        split
        · exact fun h => hanin h
        · intro h
          rcases List.mem_append.1 h with h2 | h2
          · exact hanin h2
          · exact hax (List.mem_singleton.1 h2)

theorem buildCounts_aux : ∀ (cs : List CorrectionRec) (d : List (Text × Nat)) (g : Text → Nat),
    CountsSpec d g → (d.map Prod.fst).Nodup →
    CountsSpec (cs.foldl (fun d c => dictIncr d c.new) d)
      (fun l => g l + countNew cs l) ∧
    ((cs.foldl (fun d c => dictIncr d c.new) d).map Prod.fst).Nodup := by
  intro cs
  induction cs with
  | nil =>
    intro d g hs hnd
    refine ⟨countsSpec_congr (fun l => ?_) hs, hnd⟩
    show g l = g l + countNew [] l
    simp [countNew]
  | cons c cs' ih =>
    intro d g hs hnd
    rw [List.foldl_cons]
    obtain ⟨hspec1, hnd1⟩ := dictIncr_spec d g c.new hs hnd
    obtain ⟨hspec2, hnd2⟩ := ih (dictIncr d c.new) _ hspec1 hnd1
    refine ⟨countsSpec_congr (fun l => ?_) hspec2, hnd2⟩
    show bumpAt g c.new l + countNew cs' l = g l + countNew (c :: cs') l
    rw [bumpAt_apply, countNew_cons]
    by_cases hl : l = c.new
    · rw [if_pos hl, if_pos hl.symm]
      omega
    · rw [if_neg hl, if_neg (fun h => hl h.symm)]
      omega

theorem buildCounts_spec (cs : List CorrectionRec) :
    CountsSpec (buildCounts cs) (countNew cs) ∧
    ((buildCounts cs).map Prod.fst).Nodup := by
  have h := buildCounts_aux cs [] (fun _ => 0)
    (fun l k => by simp; omega) (by simp)
  unfold buildCounts
  refine ⟨countsSpec_congr (fun l => by simp) h.1, h.2⟩

theorem maxBySnd_mem : ∀ (ys : List (Text × Nat)) (x : Text × Nat),
    maxBySnd x ys ∈ x :: ys := by
  intro ys
  induction ys with
  | nil => intro x; exact List.mem_singleton.2 rfl
  | cons y ys' ih =>
    intro x
    unfold maxBySnd
    rw [List.foldl_cons]
    have h := ih (if y.2 > x.2 then y else x)
    unfold maxBySnd at h
    rcases List.mem_cons.1 h with heq | hmem
    · rw [heq]
      split
      · exact List.mem_cons_of_mem _ (List.mem_cons_self _ _)
      · exact List.mem_cons_self _ _
    · exact List.mem_cons_of_mem _ (List.mem_cons_of_mem _ hmem)

theorem maxBySnd_eq_of_strict : ∀ (ys : List (Text × Nat)) (x lk : Text × Nat),
    (lk = x ∨ lk ∈ ys) →
    (∀ w, (w = x ∨ w ∈ ys) → w ≠ lk → w.2 < lk.2) →
    maxBySnd x ys = lk := by
  intro ys
  induction ys with
  | nil =>
    intro x lk hmem _
    rcases hmem with rfl | h
    · rfl
    · exact absurd h (List.not_mem_nil _)
  | cons y ys' ih =>
    intro x lk hmem hdom
    unfold maxBySnd
    rw [List.foldl_cons]
    have hstep : (if y.2 > x.2 then y else x) = y ∨ (if y.2 > x.2 then y else x) = x := by
      split
      · exact Or.inl rfl
      · exact Or.inr rfl
    have hdom' : ∀ w, (w = (if y.2 > x.2 then y else x) ∨ w ∈ ys') → w ≠ lk → w.2 < lk.2 := by
      intro w hw hne
      rcases hw with hw | hw
      · rcases hstep with hs | hs
        · rw [hs] at hw
          exact hdom w (Or.inr (hw ▸ List.mem_cons_self _ _)) hne
        · rw [hs] at hw
          exact hdom w (Or.inl hw) hne
      · exact hdom w (Or.inr (List.mem_cons_of_mem _ hw)) hne
    have hmem' : lk = (if y.2 > x.2 then y else x) ∨ lk ∈ ys' := by
      rcases hmem with rfl | hm
      · left
        split
        · next hyx =>
          by_cases hy : y = lk
          · exact hy.symm
          · exact absurd (hdom y (Or.inr (List.mem_cons_self _ _)) hy) (by omega)
        · rfl
      · rcases List.mem_cons.1 hm with rfl | hm'
        · left
          split
          · rfl
          · next hyx =>
            by_cases hx : x = lk
            · exact hx.symm
            · exact absurd (hdom x (Or.inl rfl) hx) (by omega)
        · exact Or.inr hm'
    have := ih (if y.2 > x.2 then y else x) lk hmem' hdom'
    unfold maxBySnd at this
    exact this

theorem countNew_add_le {l1 l2 : Text} (h : l1 ≠ l2) :
    ∀ (cs : List CorrectionRec), countNew cs l1 + countNew cs l2 ≤ cs.length := by
  intro cs
  induction cs with
  | nil => simp [countNew]
  | cons c cs' ih =>
    rw [countNew_cons, countNew_cons, List.length_cons]
    by_cases h1 : c.new = l1
    · rw [if_pos h1, if_neg (fun h2 => h (h1.symm.trans h2))]
      omega
    · rw [if_neg h1]
      split
      · omega
      · omega

/-- C5: `suggest_improvements` emits the pair (feature text, label)
exactly when the feature has at least 3 recorded corrections and that
label accounts for at least 75% of their new labels; such a label is
automatically the unique modal new label, and the code's
first-maximum tie-break returns it. -/
theorem suggest_improvements_iff (hist : List (Text × List CorrectionRec)) (ft lbl : Text) :
    (ft, lbl) ∈ suggestImprovements hist ↔
      ∃ cs, (ft, cs) ∈ hist ∧ 3 ≤ cs.length ∧ 3 * cs.length ≤ 4 * countNew cs lbl := by
  constructor
  · intro hmem
    obtain ⟨e, hin, hstepRaw⟩ := List.mem_filterMap.1 hmem
    obtain ⟨ft0, cs⟩ := e
    have hstep : suggestStep ft0 cs = some (ft, lbl) := hstepRaw
    unfold suggestStep at hstep
    by_cases hlen : 3 ≤ cs.length
    · rw [if_pos hlen] at hstep
      cases hbc : buildCounts cs with
      | nil => rw [hbc] at hstep; exact absurd hstep (by simp)
      | cons x ys =>
        rw [hbc] at hstep
        have hstep2 : (if (3 : ℚ) / 4 ≤ ((maxBySnd x ys).2 : ℚ) / (cs.length : ℚ)
            then some (ft0, (maxBySnd x ys).1) else none) = some (ft, lbl) := hstep
        by_cases hratio : (3 : ℚ) / 4 ≤ ((maxBySnd x ys).2 : ℚ) / (cs.length : ℚ)
        · rw [if_pos hratio] at hstep2
          rw [Option.some.injEq, Prod.mk.injEq] at hstep2
          obtain ⟨rfl, h2⟩ := hstep2
          have hmc : maxBySnd x ys ∈ buildCounts cs := by
            rw [hbc]
            exact maxBySnd_mem ys x
          have hspec := (buildCounts_spec cs).1
          have hmc2 : ((maxBySnd x ys).1, (maxBySnd x ys).2) ∈ buildCounts cs := by
            rw [@Prod.mk.eta _ _ (maxBySnd x ys)]
            exact hmc
          obtain ⟨hcount, hposk⟩ := (hspec (maxBySnd x ys).1 (maxBySnd x ys).2).1 hmc2
          refine ⟨cs, hin, hlen, ?_⟩
          have hlenposQ : (0 : ℚ) < (cs.length : ℚ) := by
            exact_mod_cast (by omega : 0 < cs.length)
          rw [div_le_div_iff₀ (by norm_num) hlenposQ] at hratio
          have hn : 3 * cs.length ≤ (maxBySnd x ys).2 * 4 := by exact_mod_cast hratio
          rw [h2] at hcount
          omega
        · rw [if_neg hratio] at hstep2
          exact absurd hstep2 (by simp)
    · rw [if_neg hlen] at hstep
      exact absurd hstep (by simp)
  · rintro ⟨cs, hin, hlen, hratio⟩
    have hpos : 0 < countNew cs lbl := by omega
    have hspec := (buildCounts_spec cs).1
    have hmem : (lbl, countNew cs lbl) ∈ buildCounts cs := (hspec lbl _).2 ⟨rfl, hpos⟩
    refine List.mem_filterMap.2 ⟨(ft, cs), hin, ?_⟩
    show suggestStep ft cs = some (ft, lbl)
    cases hbc : buildCounts cs with
    | nil =>
      rw [hbc] at hmem
      exact absurd hmem (List.not_mem_nil _)
    | cons x ys =>
      have hmax : maxBySnd x ys = (lbl, countNew cs lbl) := by
        refine maxBySnd_eq_of_strict ys x (lbl, countNew cs lbl) ?_ ?_
        · rw [← List.mem_cons, ← hbc]
          exact hmem
        · intro w hw hne
          have hwmem : w ∈ buildCounts cs := by
            rw [hbc, List.mem_cons]
            exact hw
          have hwmem2 : (w.1, w.2) ∈ buildCounts cs := by
            rw [@Prod.mk.eta _ _ w]
            exact hwmem
          obtain ⟨hwc, hwpos⟩ := (hspec w.1 w.2).1 hwmem2
          show w.2 < countNew cs lbl
          by_cases hwl : w.1 = lbl
          · exfalso
            apply hne
            have hw2 : w.2 = countNew cs lbl := by rw [← hwc, hwl]
            rw [← @Prod.mk.eta _ _ w, hwl, hw2]
          · have hle := countNew_add_le hwl cs
            rw [hwc] at hle
            omega
      have hlenposQ : (0 : ℚ) < (cs.length : ℚ) := by
        exact_mod_cast (by omega : 0 < cs.length)
      have hratioQ : (3 : ℚ) / 4 ≤ ((countNew cs lbl : ℚ)) / (cs.length : ℚ) := by
        rw [div_le_div_iff₀ (by norm_num) hlenposQ]
        exact_mod_cast (by omega : 3 * cs.length ≤ countNew cs lbl * 4)
      unfold suggestStep
      rw [if_pos hlen, hbc]
      show (if (3 : ℚ) / 4 ≤ ((maxBySnd x ys).2 : ℚ) / (cs.length : ℚ)
          then some (ft, (maxBySnd x ys).1) else none) = some (ft, lbl)
      rw [hmax]
      show (if (3 : ℚ) / 4 ≤ ((countNew cs lbl : ℚ)) / (cs.length : ℚ)
          then some (ft, lbl) else none) = some (ft, lbl)
      rw [if_pos hratioQ]


/-- Witness for C5: three agreeing corrections ("h" corrected to "e"
3/3 times) produce the suggestion; with only 2/3 agreeing no suggestion
at all is produced. -/
theorem suggest_improvements_iff_witness :
    (([104], [101]) ∈ suggestImprovements
      [([104], [⟨none, [101], 0⟩, ⟨none, [101], 1⟩, ⟨none, [101], 2⟩])]) ∧
    suggestImprovements
      [([104], [⟨none, [101], 0⟩, ⟨none, [101], 1⟩, ⟨none, [102], 2⟩])] = [] := by
  constructor
  · exact (suggest_improvements_iff
      [([104], [⟨none, [101], 0⟩, ⟨none, [101], 1⟩, ⟨none, [101], 2⟩])] [104] [101]).2
      ⟨[⟨none, [101], 0⟩, ⟨none, [101], 1⟩, ⟨none, [101], 2⟩],
        by decide, by decide, by decide⟩
  · norm_num [suggestImprovements, suggestStep, buildCounts, dictIncr, maxBySnd,
      List.filterMap]

end VAuto
